import Mathlib

/-!
Verification of the text-chunking and speech-playback controller of the
readwrite-aid repository (src/src/components/AudioPlayer.tsx), as described
by the repository specification.

The chunker and the voice selector are pure functions and are embedded
directly.  The playback sequencer (React component state plus the speech
engine callbacks) is embedded as an explicit state machine: component state
and refs become record fields, each handler becomes a state transformer, and
engine callbacks become events.  State updates are modelled as taking effect
immediately within a handler, and every dispatched utterance whose
end/error callback has not yet been delivered may still deliver it later,
including after speechSynthesis.cancel() - this models the stale-callback
hazard the specification describes in its concurrency section.
-/

set_option maxRecDepth 20000

namespace ReadAloud

/-- Sentence-terminal punctuation, the character class of the source regex
/[^.!?]+[.!?]+/g in chunkText. -/
def isTermChar (c : Char) : Bool := c = '.' || c = '!' || c = '?'

/-- JavaScript string whitespace (the set stripped by String.prototype.trim:
ASCII whitespace, NBSP, BOM and the Unicode line/paragraph separators). -/
def isJsWs (c : Char) : Bool :=
  c = ' ' || c = '\t' || c = '\n' || c = '\r' ||
  c = '\x0b' || c = '\x0c' || c = '\u00A0' ||
  c = '\u2028' || c = '\u2029' || c = '\uFEFF'

/-- One-pass implementation of the global regex match
text.match(/[^.!?]+[.!?]+/g): a match is a maximal run of non-terminal
characters immediately followed by a maximal run of terminal punctuation.
The accumulators hold (reversed) the current non-terminal body and the
current punctuation run; a body not followed by punctuation (the trailing
segment of the input) is dropped, as is a punctuation run not preceded by a
body (a leading punctuation run). -/
def matchesAux : List Char → List Char → List Char → List (List Char)
  | [], _, [] => []
  | [], body, p :: ps => [body.reverse ++ (p :: ps).reverse]
  | c :: cs, body, [] =>
      if isTermChar c then
        if body.isEmpty then matchesAux cs [] []
        else matchesAux cs body [c]
      else matchesAux cs (c :: body) []
  | c :: cs, body, p :: ps =>
      if isTermChar c then matchesAux cs body (c :: p :: ps)
      else (body.reverse ++ (p :: ps).reverse) :: matchesAux cs [c] []

/-- The sentence list of chunkText:
text.match(/[^.!?]+[.!?]+/g) || [text]. -/
def sentencesL (cs : List Char) : List (List Char) :=
  let m := matchesAux cs [] []
  if m.isEmpty then [cs] else m

/-- JavaScript String.prototype.trim on a character list. -/
def trimL (l : List Char) : List Char :=
  ((l.dropWhile isJsWs).reverse.dropWhile isJsWs).reverse

/-- The greedy accumulation loop of chunkText: append the next sentence to
the running buffer while the result stays within maxLength, otherwise flush
the (trimmed) buffer and restart the buffer from that sentence; flush any
remaining buffer at the end.  Empty buffers are never flushed (JavaScript
if (currentChunk) truthiness). -/
def chunkAux (maxLength : Nat) : List (List Char) → List Char → List (List Char)
  | [], current => if current.isEmpty then [] else [trimL current]
  | s :: rest, current =>
      if maxLength < (current ++ s).length then
        (if current.isEmpty then chunkAux maxLength rest s
         else trimL current :: chunkAux maxLength rest s)
      else chunkAux maxLength rest (current ++ s)

/-- chunkText from AudioPlayer.tsx, over character lists. -/
def chunkTextL (maxLength : Nat) (cs : List Char) : List (List Char) :=
  chunkAux maxLength (sentencesL cs) []

/-- chunkText from AudioPlayer.tsx (the source default for maxLength is 200,
supplied at the call site in the sequencer). -/
def chunkText (text : String) (maxLength : Nat) : List String :=
  (chunkTextL maxLength text.toList).map (fun l => String.mk l)

/-- The non-whitespace character sequence of a character list. -/
def stripWs (l : List Char) : List Char := l.filter (fun c => !isJsWs c)

/-- Whitespace-separated word splitting (auxiliary accumulator form). -/
def splitWsAux : List Char → List Char → List (List Char)
  | [], acc => [acc.reverse]
  | c :: cs, acc =>
      if isJsWs c then acc.reverse :: splitWsAux cs []
      else splitWsAux cs (c :: acc)

/-- The word sequence of a character list: maximal runs of non-whitespace
characters, in order. -/
def wordsOfL (l : List Char) : List (List Char) :=
  (splitWsAux l []).filter (fun w => !w.isEmpty)

/-- Whether a text contains no sentence-boundary punctuation at all. -/
def noSentencePunct (text : String) : Bool :=
  text.toList.all (fun c => !isTermChar c)

/-- Concatenation of a chunk list back into a character sequence. -/
def concatChunks (cs : List String) : List Char :=
  (cs.map (fun c => c.toList)).flatten

/-- A SpeechSynthesisVoice as the selector sees it: a display name and a
BCP-47 language tag. -/
structure Voice where
  name : String
  lang : String
deriving DecidableEq

/-- Whether the first list is a prefix of the second. -/
def isPrefixOfL : List Char → List Char → Bool
  | [], _ => true
  | _ :: _, [] => false
  | a :: as, b :: bs => a = b && isPrefixOfL as bs

/-- Whether the first list occurs contiguously inside the second. -/
def isInfixOfL (needle : List Char) : List Char → Bool
  | [] => needle.isEmpty
  | b :: bs => isPrefixOfL needle (b :: bs) || isInfixOfL needle bs

/-- JavaScript String.prototype.includes (substring containment). -/
def containsSub (needle hay : String) : Bool :=
  isInfixOfL needle.toList hay.toList

/-- Lower-casing of a display name (String.prototype.toLowerCase). -/
def lowerStr (s : String) : String := String.mk (s.toList.map Char.toLower)

/-- v.lang.includes('en-IN') || v.lang.includes('en_IN') from loadVoices. -/
def isIndianVoice (v : Voice) : Bool :=
  containsSub "en-IN" v.lang || containsSub "en_IN" v.lang

/-- v.lang.startsWith('en') from loadVoices. -/
def isEnglishVoice (v : Voice) : Bool := isPrefixOfL ("en").toList v.lang.toList

/-- The curated female-name heuristic of loadVoices:
name.toLowerCase().includes of female / woman / samantha / victoria. -/
def hasFemaleName (v : Voice) : Bool :=
  containsSub "female" (lowerStr v.name) || containsSub "woman" (lowerStr v.name) ||
  containsSub "samantha" (lowerStr v.name) || containsSub "victoria" (lowerStr v.name)

/-- The default-voice selection of loadVoices:
indianVoices[0], else a female-named voice among the English voices,
else englishVoices[0], else voices[0] (undefined, i.e. none, when empty). -/
def selectDefaultVoice (voices : List Voice) : Option Voice :=
  let indianVoices := voices.filter isIndianVoice
  let englishVoices := voices.filter isEnglishVoice
  match indianVoices.head? with
  | some v => some v
  | none =>
      ((englishVoices.find? hasFemaleName).orElse
        (fun _ => englishVoices.head?)).orElse
        (fun _ => voices.head?)

/-- The voice list put into the selector dropdown by loadVoices:
the Indian voices when any exist, else the English voices when any exist,
else all voices. -/
def availableVoicesOf (voices : List Voice) : List Voice :=
  let indianVoices := voices.filter isIndianVoice
  let englishVoices := voices.filter isEnglishVoice
  let voiceList := if indianVoices.length > 0 then indianVoices else englishVoices
  if voiceList.length > 0 then voiceList else voices

/-- The default-voice policy as the specification words it, with priority
step 2 amended to range over the English voices only (as the source does):
first a voice whose locale matches the preferred locale en-IN, else a voice
whose locale begins with the base language en and whose display name matches
the female-name heuristic, else the first voice whose locale begins with en,
else the first voice of the list, else none. -/
def selectDefaultSpec (voices : List Voice) : Option Voice :=
  match voices.find? isIndianVoice with
  | some v => some v
  | none =>
      match voices.find? (fun v => isEnglishVoice v && hasFemaleName v) with
      | some v => some v
      | none =>
          match voices.find? isEnglishVoice with
          | some v => some v
          | none => voices.head?

/-- The default-voice policy exactly as the claim words it: priority step 2
is a voice whose display name matches the female-name heuristic, with no
locale restriction. -/
def selectDefaultClaimed (voices : List Voice) : Option Voice :=
  match voices.find? isIndianVoice with
  | some v => some v
  | none =>
      match voices.find? hasFemaleName with
      | some v => some v
      | none =>
          match voices.find? isEnglishVoice with
          | some v => some v
          | none => voices.head?

/-- A toast notification (useToast): title, description, and whether it was
raised with the destructive variant. -/
structure Toast where
  title : String
  description : String
  destructive : Bool
deriving DecidableEq

/-- A SpeechSynthesisUtterance as configured by speakNextChunk. -/
structure Utterance where
  text : String
  rate : ℚ
  pitch : ℚ
  volume : ℚ
  voice : Option Voice
deriving DecidableEq

/-- The playback sequencer state: the component props and state hooks
(text, isPlaying, speed, availableVoices, selectedVoice, progress), the refs
(utteranceRef, chunksRef, currentChunkRef), and the observable engine state:
whether speechSynthesis is paused, how many dispatched utterances still have
an undelivered end/error callback (outstanding), the log of speak() calls
(dispatched, most recent first), the number of cancel() calls, and the log
of toasts raised (most recent first). -/
structure PlayerState where
  text : String
  isPlaying : Bool
  speed : ℚ
  availableVoices : List Voice
  selectedVoice : Option Voice
  progress : ℚ
  utteranceRef : Option Utterance
  chunks : List String
  currentChunk : Nat
  enginePaused : Bool
  outstanding : Nat
  dispatched : List Utterance
  cancels : Nat
  toasts : List Toast
deriving DecidableEq

/-- window.speechSynthesis.cancel(): the engine stops and is no longer
paused.  The end/error callbacks of already dispatched utterances may still
be delivered afterwards (outstanding is not cleared): this is the
stale-callback hazard of the concurrency section of the specification. -/
def engineCancel (s : PlayerState) : PlayerState :=
  { s with cancels := s.cancels + 1, enginePaused := false }

/-- speakNextChunk from AudioPlayer.tsx: past the last chunk it stops and
reports completion; otherwise it builds an utterance for the current chunk
at the current speed and selected voice, stores it in utteranceRef, and
hands it to the engine. -/
def speakNextChunkS (s : PlayerState) : PlayerState :=
  if s.chunks.length ≤ s.currentChunk then
    { s with isPlaying := false, progress := 100,
             toasts := ⟨"Completed!", "Finished reading the document", false⟩ :: s.toasts }
  else
    let u : Utterance :=
      { text := s.chunks.getD s.currentChunk "", rate := s.speed,
        pitch := 1, volume := 1, voice := s.selectedVoice }
    { s with utteranceRef := some u,
             dispatched := u :: s.dispatched,
             outstanding := s.outstanding + 1 }

/-- The utterance.onend handler: advance the position, recompute
progress as (position / totalChunks) * 100, and speak the next chunk. -/
def onUtteranceEnd (s : PlayerState) : PlayerState :=
  speakNextChunkS
    { s with currentChunk := s.currentChunk + 1,
             progress := ((s.currentChunk + 1 : Nat) : ℚ) / (s.chunks.length : ℚ) * 100 }

/-- The utterance.onerror handler: raise a destructive error toast and stop
playing; position, progress and chunks are left untouched and nothing new is
dispatched. -/
def onUtteranceError (s : PlayerState) : PlayerState :=
  { s with toasts := ⟨"Error", "Failed to play audio. Please try again.", true⟩ :: s.toasts,
           isPlaying := false }

/-- handlePlayPause from AudioPlayer.tsx: without a selected voice, toast
and do nothing; while playing, pause the engine (not cancel); otherwise
resume if the engine is paused, else start a fresh session: chunk the text
at maxLength 200, reset position and progress, toast, and speak chunk 0. -/
def handlePlayPauseS (s : PlayerState) : PlayerState :=
  match s.selectedVoice with
  | none =>
      { s with toasts := ⟨"No voice available", "Please wait for voices to load", true⟩ :: s.toasts }
  | some _ =>
      if s.isPlaying then
        { s with enginePaused := true, isPlaying := false }
      else if s.enginePaused then
        { s with enginePaused := false, isPlaying := true }
      else
        let cs := chunkText s.text 200
        let s1 := { s with chunks := cs, currentChunk := 0, progress := 0, isPlaying := true,
                           toasts := ⟨"Starting playback",
                             "Reading " ++ toString cs.length ++ " text segments", false⟩ :: s.toasts }
        speakNextChunkS s1

/-- handleRestart from AudioPlayer.tsx: cancel the engine, stop, and reset
progress and position to 0. -/
def handleRestartS (s : PlayerState) : PlayerState :=
  let s1 := engineCancel s
  { s1 with isPlaying := false, progress := 0, currentChunk := 0 }

/-- handleSpeedChange from AudioPlayer.tsx: setSpeed(newSpeed) schedules an
asynchronous React state update, and the speakNextChunk invoked in the same
handler is the current render's closure, which still reads the pre-update
speed - so when playing with an utterance in flight the engine is cancelled
and the current chunk is re-dispatched at the OLD rate; the new speed is
only visible in the state after the handler returns. -/
def handleSpeedChangeS (v : ℚ) (s : PlayerState) : PlayerState :=
  if s.isPlaying && s.utteranceRef.isSome then
    { speakNextChunkS (engineCancel s) with speed := v }
  else { s with speed := v }

/-- handleVoiceChange from AudioPlayer.tsx: look the name up in the
available voices; when found, select it, and if currently playing, cancel
the engine, stop, and reset progress to 0 (the position ref is not reset). -/
def handleVoiceChangeS (name : String) (s : PlayerState) : PlayerState :=
  match s.availableVoices.find? (fun v => v.name == name) with
  | some voice =>
      let s1 := { s with selectedVoice := some voice }
      if s1.isPlaying then
        let s2 := engineCancel s1
        { s2 with isPlaying := false, progress := 0 }
      else s1
  | none => s

/-- The discrete events of the sequencer: the user transport commands and
the engine callback deliveries.  An end/error delivery is possible whenever
some dispatched utterance has an undelivered callback; delivery after a
cancel models a stale callback. -/
inductive Ev where
  | playPause : Ev
  | restart : Ev
  | engineEnd : Ev
  | engineError : Ev
  | speedChange : ℚ → Ev
  | voiceChange : String → Ev
deriving DecidableEq

/-- One event step of the sequencer. -/
def step (s : PlayerState) : Ev → PlayerState
  | Ev.playPause => handlePlayPauseS s
  | Ev.restart => handleRestartS s
  | Ev.engineEnd =>
      if s.outstanding = 0 then s
      else onUtteranceEnd { s with outstanding := s.outstanding - 1 }
  | Ev.engineError =>
      if s.outstanding = 0 then s
      else onUtteranceError { s with outstanding := s.outstanding - 1 }
  | Ev.speedChange v => handleSpeedChangeS v s
  | Ev.voiceChange n => handleVoiceChangeS n s

/-- The component state after mount: loadVoices has populated the available
voices and the default selection; nothing is playing and nothing has been
dispatched. -/
def initState (text : String) (voices : List Voice) : PlayerState :=
  { text := text, isPlaying := false, speed := 1,
    availableVoices := availableVoicesOf voices,
    selectedVoice := selectDefaultVoice voices,
    progress := 0, utteranceRef := none, chunks := [], currentChunk := 0,
    enginePaused := false, outstanding := 0, dispatched := [], cancels := 0,
    toasts := [] }

/-- Run a sequence of events from a state. -/
def exec (s : PlayerState) : List Ev → PlayerState
  | [] => s
  | e :: es => exec (step s e) es

/-- The progress invariant of the sequencer: progress is 0, or it is
100 * min(position, totalChunks) / totalChunks of a non-empty chunk
sequence, or it is the final 100 with the position at or past the end. -/
def progressInv (s : PlayerState) : Prop :=
  s.progress = 0 ∨
  (0 < s.chunks.length ∧
    s.progress = 100 * ((min s.currentChunk s.chunks.length : Nat) : ℚ) / (s.chunks.length : ℚ)) ∨
  (s.progress = 100 ∧ s.chunks.length ≤ s.currentChunk)

/-- The example input of the specification, section 8. -/
def specExampleText : String :=
  "Hello world. This is a test sentence that is fairly long indeed. Short one."

/-- A 400-character input whose 200-character chunking has two chunks. -/
def twoChunkText : String :=
  String.mk (List.replicate 198 'a' ++ ['.', ' '] ++ List.replicate 198 'b' ++ ['.'])

/-- An Indian-English voice used in concrete scenarios. -/
def sampleVoice : Voice := ⟨"v", "en-IN"⟩

/-- A state in the middle of playback: a fresh session over the one-chunk
text "Hi." with the first utterance dispatched and not yet finished. -/
def samplePlaying : PlayerState :=
  exec (initState "Hi." [sampleVoice]) [Ev.playPause]

theorem stripWs_append (l m : List Char) : stripWs (l ++ m) = stripWs l ++ stripWs m :=
  List.filter_append l m

theorem stripWs_reverse (l : List Char) : stripWs l.reverse = (stripWs l).reverse :=
  List.filter_reverse _ l

theorem stripWs_dropWhile (l : List Char) : stripWs (l.dropWhile isJsWs) = stripWs l := by
  induction l with
  | nil => rfl
  | cons a t ih =>
      rw [List.dropWhile_cons]
      by_cases h : isJsWs a = true
      · rw [if_pos h]
        rw [ih]
        show stripWs t = List.filter (fun c => !isJsWs c) (a :: t)
        rw [List.filter_cons]
        simp [h, stripWs]
      · rw [if_neg h]

theorem stripWs_trimL (l : List Char) : stripWs (trimL l) = stripWs l := by
  unfold trimL
  rw [stripWs_reverse, stripWs_dropWhile, stripWs_reverse, stripWs_dropWhile,
    List.reverse_reverse]

theorem trimL_length_le (l : List Char) : (trimL l).length ≤ l.length := by
  unfold trimL
  calc ((l.dropWhile isJsWs).reverse.dropWhile isJsWs).reverse.length
      = ((l.dropWhile isJsWs).reverse.dropWhile isJsWs).length := List.length_reverse _
    _ ≤ (l.dropWhile isJsWs).reverse.length := (List.dropWhile_sublist _).length_le
    _ = (l.dropWhile isJsWs).length := List.length_reverse _
    _ ≤ l.length := (List.dropWhile_sublist _).length_le

theorem chunkAux_flatten (maxLen : Nat) (ss : List (List Char)) (cur : List Char) :
    stripWs (chunkAux maxLen ss cur).flatten = stripWs (cur ++ ss.flatten) := by
  induction ss generalizing cur with
  | nil =>
      rw [chunkAux]
      by_cases h : cur.isEmpty = true
      · rw [List.isEmpty_iff] at h
        simp [h, stripWs]
      · rw [if_neg h]
        simp [stripWs_trimL]
  | cons s rest ih =>
      rw [chunkAux]
      by_cases hlen : maxLen < (cur ++ s).length
      · rw [if_pos hlen]
        by_cases h : cur.isEmpty = true
        · rw [if_pos h, List.isEmpty_iff] at *
          rw [ih s]
          subst h
          simp
        · rw [if_neg h]
          rw [List.flatten_cons, stripWs_append, stripWs_trimL, ih s,
            List.flatten_cons, stripWs_append, stripWs_append, stripWs_append]
      · rw [if_neg hlen, ih (cur ++ s), List.flatten_cons, List.append_assoc]

/-- Claim C1 (counterexample): for the input "Hi. world" (at the source
default maxLength 200) the single chunk is "Hi." and the word "world",
which follows the last sentence-terminal punctuation mark, is dropped, so
concatenating the chunks does not reproduce the word sequence of the
original text. -/
theorem chunk_words_dropped_cex :
    chunkText "Hi. world" 200 = ["Hi."] ∧
    ¬ ((chunkText "Hi. world" 200).map (fun c => wordsOfL c.toList)).flatten
        = wordsOfL ("Hi. world").toList := by
  decide

/-- Claim C1 (amended): for every input text and every maxLength,
concatenating all chunks of chunkText yields, ignoring whitespace, exactly
the character sequence of the concatenated sentence matches of the text
(the whole text when the sentence regex matches nothing): no non-whitespace
character of any matched sentence is dropped, reordered or duplicated, but
a leading run of terminal punctuation and a trailing segment after the last
terminal punctuation mark are outside every match and are dropped. -/
theorem chunk_concat_sentences (text : String) (maxLen : Nat) :
    stripWs (concatChunks (chunkText text maxLen)) =
      stripWs (sentencesL text.toList).flatten := by
  unfold concatChunks chunkText chunkTextL
  rw [List.map_map]
  have hmap : (String.toList ∘ fun l => String.mk l) = id := rfl
  rw [hmap, List.map_id]
  rw [chunkAux_flatten]
  rfl

theorem matchesAux_mem_ne_nil (cs : List Char) :
    ∀ body ps m, m ∈ matchesAux cs body ps → m ≠ [] := by
  induction cs with
  | nil =>
      intro body ps m hm
      cases ps with
      | nil => simp [matchesAux] at hm
      | cons p pt =>
          simp only [matchesAux, List.mem_singleton] at hm
          subst hm
          simp
  | cons c ct ih =>
      intro body ps m hm
      cases ps with
      | nil =>
          rw [matchesAux] at hm
          by_cases h : isTermChar c = true
          · rw [if_pos h] at hm
            by_cases hb : body.isEmpty = true
            · rw [if_pos hb] at hm
              exact ih _ _ _ hm
            · rw [if_neg hb] at hm
              exact ih _ _ _ hm
          · rw [if_neg h] at hm
            exact ih _ _ _ hm
      | cons p pt =>
          rw [matchesAux] at hm
          by_cases h : isTermChar c = true
          · rw [if_pos h] at hm
            exact ih _ _ _ hm
          · rw [if_neg h, List.mem_cons] at hm
            rcases hm with hm | hm
            · subst hm; simp
            · exact ih _ _ _ hm

theorem sentencesL_ne_nil (cs : List Char) : sentencesL cs ≠ [] := by
  unfold sentencesL
  by_cases h : (matchesAux cs [] []).isEmpty = true
  · rw [if_pos h]; simp
  · rw [if_neg h]
    rw [List.isEmpty_iff] at h
    exact h

theorem sentencesL_mem_ne_nil (cs : List Char) (hcs : cs ≠ []) :
    ∀ s ∈ sentencesL cs, s ≠ [] := by
  intro s hs
  unfold sentencesL at hs
  by_cases h : (matchesAux cs [] []).isEmpty = true
  · rw [if_pos h, List.mem_singleton] at hs
    subst hs; exact hcs
  · rw [if_neg h] at hs
    exact matchesAux_mem_ne_nil cs [] [] s hs

theorem chunkAux_ne_nil_of_cur (maxLen : Nat) (ss : List (List Char)) :
    ∀ cur : List Char, cur ≠ [] → chunkAux maxLen ss cur ≠ [] := by
  induction ss with
  | nil =>
      intro cur h
      rw [chunkAux, if_neg (by rwa [Ne, ← List.isEmpty_iff] at h)]
      simp
  | cons s rest ih =>
      intro cur h
      rw [chunkAux]
      by_cases hlen : maxLen < (cur ++ s).length
      · rw [if_pos hlen, if_neg (by rwa [Ne, ← List.isEmpty_iff] at h)]
        simp
      · rw [if_neg hlen]
        exact ih (cur ++ s) (by simp [h])

theorem chunkAux_cons_ne_nil (maxLen : Nat) (s : List Char) (ss : List (List Char))
    (cur : List Char) (hs : s ≠ []) : chunkAux maxLen (s :: ss) cur ≠ [] := by
  rw [chunkAux]
  by_cases hlen : maxLen < (cur ++ s).length
  · rw [if_pos hlen]
    by_cases hc : cur.isEmpty = true
    · rw [if_pos hc]
      exact chunkAux_ne_nil_of_cur maxLen ss s hs
    · rw [if_neg hc]
      simp
  · rw [if_neg hlen]
    exact chunkAux_ne_nil_of_cur maxLen ss (cur ++ s) (by simp [hs])

theorem mem_chunkAux_oversize (maxLen : Nat) (ss : List (List Char)) :
    ∀ cur c, c ∈ chunkAux maxLen ss cur → maxLen < c.length →
      (∃ s ∈ ss, c = trimL s) ∨ c = trimL cur := by
  induction ss with
  | nil =>
      intro cur c hc _
      rw [chunkAux] at hc
      by_cases h : cur.isEmpty = true
      · rw [if_pos h] at hc
        simp at hc
      · rw [if_neg h, List.mem_singleton] at hc
        exact Or.inr hc
  | cons s rest ih =>
      intro cur c hc hlen
      rw [chunkAux] at hc
      by_cases hover : maxLen < (cur ++ s).length
      · rw [if_pos hover] at hc
        by_cases h : cur.isEmpty = true
        · rw [if_pos h] at hc
          rcases ih s c hc hlen with ⟨t, ht, he⟩ | he
          · exact Or.inl ⟨t, List.mem_cons_of_mem s ht, he⟩
          · exact Or.inl ⟨s, List.mem_cons_self s rest, he⟩
        · rw [if_neg h, List.mem_cons] at hc
          rcases hc with he | hc
          · exact Or.inr he
          · rcases ih s c hc hlen with ⟨t, ht, he⟩ | he
            · exact Or.inl ⟨t, List.mem_cons_of_mem s ht, he⟩
            · exact Or.inl ⟨s, List.mem_cons_self s rest, he⟩
      · rw [if_neg hover] at hc
        rcases ih (cur ++ s) c hc hlen with ⟨t, ht, he⟩ | he
        · exact Or.inl ⟨t, List.mem_cons_of_mem s ht, he⟩
        · exfalso
          have h1 : (trimL (cur ++ s)).length ≤ (cur ++ s).length := trimL_length_le _
          have h2 : c.length ≤ (cur ++ s).length := by rw [he]; exact h1
          omega

theorem mem_chunkAux_trim (maxLen : Nat) (ss : List (List Char)) :
    ∀ cur c, c ∈ chunkAux maxLen ss cur → ∃ g : List Char, c = trimL g := by
  induction ss with
  | nil =>
      intro cur c hc
      rw [chunkAux] at hc
      by_cases h : cur.isEmpty = true
      · rw [if_pos h] at hc
        simp at hc
      · rw [if_neg h, List.mem_singleton] at hc
        exact ⟨cur, hc⟩
  | cons s rest ih =>
      intro cur c hc
      rw [chunkAux] at hc
      by_cases hover : maxLen < (cur ++ s).length
      · rw [if_pos hover] at hc
        by_cases h : cur.isEmpty = true
        · rw [if_pos h] at hc
          exact ih s c hc
        · rw [if_neg h, List.mem_cons] at hc
          rcases hc with he | hc
          · exact ⟨cur, he⟩
          · exact ih s c hc
      · rw [if_neg hover] at hc
        exact ih (cur ++ s) c hc

theorem toList_ne_nil_of_ne_empty (text : String) (h : text ≠ "") : text.toList ≠ [] := by
  cases text with
  | mk l =>
      intro hl
      apply h
      have hl' : l = [] := hl
      subst hl'
      rfl

theorem chunk_oversize_core (text : String) (maxLen : Nat) (c : String)
    (hc : c ∈ chunkText text maxLen) (hlen : maxLen < c.length) :
    ∃ s ∈ sentencesL text.toList, c = String.mk (trimL s) := by
  obtain ⟨l, hl, rfl⟩ := List.mem_map.mp hc
  have hlen' : maxLen < l.length := hlen
  rcases mem_chunkAux_oversize maxLen _ [] l hl hlen' with ⟨s, hs, he⟩ | he
  · exact ⟨s, hs, by rw [he]⟩
  · exfalso
    have : l = ([] : List Char) := by rw [he]; rfl
    rw [this] at hlen'
    exact absurd hlen' (by simp)

/-- Claim C2 (counterexample): on the specification's own example input
(which contains sentence punctuation) with maxLength 40, chunkText returns
three chunks whose middle chunk has 51 characters, so an oversized chunk is
neither unique nor produced from a punctuation-free input. -/
theorem chunk_oversize_cex :
    chunkText specExampleText 40 =
      ["Hello world.", "This is a test sentence that is fairly long indeed.", "Short one."] ∧
    ¬ ∀ c ∈ chunkText specExampleText 40,
        c.length ≤ 40 ∨
          (chunkText specExampleText 40 = [c] ∧ noSentencePunct specExampleText = true) := by
  decide

/-- Claim C2 (amended): for every non-empty input text and every maxLength,
chunkText returns a non-empty sequence, and every chunk either has length
at most maxLength or is the trim of a single sentence unit of the input -
an oversized chunk can occur at any position, not only as the unique chunk
of a punctuation-free input. -/
theorem chunk_nonempty_bounded (text : String) (maxLen : Nat) (h : text ≠ "") :
    chunkText text maxLen ≠ [] ∧
    ∀ c ∈ chunkText text maxLen,
      c.length ≤ maxLen ∨ ∃ s ∈ sentencesL text.toList, c = String.mk (trimL s) := by
  have h1 : text.toList ≠ [] := toList_ne_nil_of_ne_empty text h
  constructor
  · unfold chunkText chunkTextL
    cases hs : sentencesL text.toList with
    | nil => exact absurd hs (sentencesL_ne_nil _)
    | cons s ss =>
        have hsne : s ≠ [] :=
          sentencesL_mem_ne_nil _ h1 s (hs ▸ List.mem_cons_self s ss)
        have hne := chunkAux_cons_ne_nil maxLen s ss [] hsne
        simpa using hne
  · intro c hc
    by_cases hb : c.length ≤ maxLen
    · exact Or.inl hb
    · exact Or.inr (chunk_oversize_core text maxLen c hc (by omega))

/-- Claim C2 (witness): the amended claim applied to the concrete input
"Hi." at maxLength 200 yields a non-empty chunk sequence. -/
theorem chunk_nonempty_bounded_w : chunkText "Hi." 200 ≠ [] :=
  (chunk_nonempty_bounded "Hi." 200 (by decide)).1

/-- Claim C9 (confirmed): every chunk longer than maxLength is the trim of
exactly one sentence unit of the input (one maximal regex match, or the
whole input when the regex matches nothing); an oversized chunk is never a
merge of two or more sentences. -/
theorem oversize_single_sentence (text : String) (maxLen : Nat) (c : String)
    (hc : c ∈ chunkText text maxLen) (hlen : maxLen < c.length) :
    ∃ s ∈ sentencesL text.toList, c = String.mk (trimL s) :=
  chunk_oversize_core text maxLen c hc hlen

/-- Claim C9 (witness): on the input "aaaa." with maxLength 1 the oversized
chunk "aaaa." is the trim of a single sentence unit. -/
theorem oversize_single_sentence_w :
    ∃ s ∈ sentencesL ("aaaa." : String).toList, "aaaa." = String.mk (trimL s) :=
  oversize_single_sentence "aaaa." 1 "aaaa." (by decide) (by decide)

theorem dropWhile_head?_not (p : Char → Bool) (l : List Char) (h : Char)
    (hh : (l.dropWhile p).head? = some h) : p h = false := by
  induction l with
  | nil => simp [List.dropWhile] at hh
  | cons a t ih =>
      rw [List.dropWhile_cons] at hh
      by_cases hp : p a = true
      · rw [if_pos hp] at hh
        exact ih hh
      · rw [if_neg hp] at hh
        simp only [List.head?_cons, Option.some_inj] at hh
        subst hh
        exact Bool.eq_false_iff.mpr hp

theorem dropWhile_getLast?_of_ne_nil (p : Char → Bool) (l : List Char)
    (h : l.dropWhile p ≠ []) : (l.dropWhile p).getLast? = l.getLast? := by
  induction l with
  | nil => simp [List.dropWhile] at h
  | cons a t ih =>
      rw [List.dropWhile_cons] at h ⊢
      by_cases hp : p a = true
      · rw [if_pos hp] at h ⊢
        rw [ih h]
        have ht : t ≠ [] := by
          intro he
          subst he
          simp [List.dropWhile] at h
        cases t with
        | nil => exact absurd rfl ht
        | cons b tb => rw [List.getLast?_cons_cons]
      · rw [if_neg hp]

theorem trimL_head?_not_ws (l : List Char) (h : Char)
    (hh : (trimL l).head? = some h) : isJsWs h = false := by
  unfold trimL at hh
  rw [List.head?_reverse] at hh
  have hne : ((l.dropWhile isJsWs).reverse.dropWhile isJsWs) ≠ [] := by
    intro he
    rw [he] at hh
    simp at hh
  rw [dropWhile_getLast?_of_ne_nil _ _ hne, List.getLast?_reverse] at hh
  exact dropWhile_head?_not isJsWs l h hh

theorem trimL_getLast?_not_ws (l : List Char) (h : Char)
    (hh : (trimL l).getLast? = some h) : isJsWs h = false := by
  unfold trimL at hh
  rw [List.getLast?_reverse] at hh
  exact dropWhile_head?_not isJsWs _ h hh

theorem ws_not_term (c : Char) (h : isJsWs c = true) : isTermChar c = false := by
  simp only [isJsWs, Bool.or_eq_true, decide_eq_true_eq] at h
  rcases h with ((((((((h | h) | h) | h) | h) | h) | h) | h) | h) | h <;> subst h <;> decide

theorem matchesAux_all_ws (cs : List Char) (hws : ∀ c ∈ cs, isJsWs c = true) :
    ∀ body, matchesAux cs body [] = [] := by
  induction cs with
  | nil => intro body; rfl
  | cons a t ih =>
      intro body
      have ha : isTermChar a = false := ws_not_term a (hws a (List.mem_cons_self a t))
      rw [matchesAux, ha, if_neg (by decide)]
      exact ih (fun c hc => hws c (List.mem_cons_of_mem a hc)) (a :: body)

theorem chunkTextL_all_ws (maxLen : Nat) (cs : List Char) (h1 : cs ≠ [])
    (hws : ∀ ch ∈ cs, isJsWs ch = true) : chunkTextL maxLen cs = [[]] := by
  have hm : matchesAux cs [] [] = [] := matchesAux_all_ws cs hws []
  have hsent : sentencesL cs = [cs] := by
    simp [sentencesL, hm]
  have hemp : ¬ cs.isEmpty = true := fun he => h1 (List.isEmpty_iff.mp he)
  have ht : trimL cs = [] := by
    unfold trimL
    rw [List.dropWhile_eq_nil_iff.mpr hws]
    rfl
  have hnil : (([] : List Char).isEmpty) = true := rfl
  unfold chunkTextL
  rw [hsent, chunkAux]
  by_cases hov : maxLen < (([] : List Char) ++ cs).length
  · rw [if_pos hov, if_pos hnil, chunkAux, if_neg hemp, ht]
  · rw [if_neg hov, chunkAux, List.nil_append, if_neg hemp, ht]

theorem chunkText_all_ws (text : String) (maxLen : Nat) (h : text ≠ "")
    (hws : ∀ ch ∈ text.toList, isJsWs ch = true) : chunkText text maxLen = [""] := by
  unfold chunkText
  rw [chunkTextL_all_ws maxLen text.toList (toList_ne_nil_of_ne_empty text h) hws]
  decide

/-- Claim C10 (confirmed): every chunk returned by chunkText is
whitespace-trimmed (its first and last characters, when they exist, are not
whitespace), and a non-empty whitespace-only input yields the single chunk
"" rather than the input itself. -/
theorem chunks_trimmed (text : String) (maxLen : Nat) :
    (∀ c ∈ chunkText text maxLen, ∀ h : Char,
      (c.toList.head? = some h → isJsWs h = false) ∧
      (c.toList.getLast? = some h → isJsWs h = false)) ∧
    (text ≠ "" → (∀ ch ∈ text.toList, isJsWs ch = true) → chunkText text maxLen = [""]) := by
  constructor
  · intro c hc h
    obtain ⟨l, hl, rfl⟩ := List.mem_map.mp hc
    obtain ⟨g, rfl⟩ := mem_chunkAux_trim maxLen _ [] l hl
    exact ⟨trimL_head?_not_ws g h, trimL_getLast?_not_ws g h⟩
  · exact chunkText_all_ws text maxLen

/-- Claim C10 (witness): the two-space input yields the single empty chunk. -/
theorem chunks_trimmed_w : chunkText "  " 7 = [""] :=
  (chunks_trimmed "  " 7).2 (by decide) (by decide)

theorem head?_filter_eq_find? {α : Type _} (p : α → Bool) (l : List α) :
    (l.filter p).head? = l.find? p := by
  induction l with
  | nil => rfl
  | cons a t ih =>
      rw [List.filter_cons]
      by_cases h : p a = true
      · rw [if_pos h, List.find?_cons_of_pos _ h]
        rfl
      · rw [if_neg h, ih, List.find?_cons_of_neg _ (by simpa using h)]

theorem find?_filter_comm {α : Type _} (p q : α → Bool) (l : List α) :
    (l.filter p).find? q = l.find? (fun a => p a && q a) := by
  induction l with
  | nil => rfl
  | cons a t ih =>
      rw [List.filter_cons]
      by_cases hp : p a = true
      · rw [if_pos hp]
        by_cases hq : q a = true
        · rw [List.find?_cons_of_pos _ hq, List.find?_cons_of_pos _ (by simp [hp, hq])]
        · rw [List.find?_cons_of_neg _ (by simpa using hq), ih,
            List.find?_cons_of_neg _ (by simp [hq])]
      · rw [if_neg hp, ih, List.find?_cons_of_neg _ (by simp [hp])]

/-- Claim C7 (counterexample): on the voice list [Bob (de-DE), Samantha
(fr-FR)] there is no en-IN voice and Samantha's display name matches the
female-name heuristic, so the claimed priority order requires Samantha; the
source selector searches the heuristic only among English voices and
returns Bob (the first voice) instead. -/
theorem default_voice_cex :
    selectDefaultVoice [⟨"Bob", "de-DE"⟩, ⟨"Samantha", "fr-FR"⟩] = some ⟨"Bob", "de-DE"⟩ ∧
    hasFemaleName ⟨"Samantha", "fr-FR"⟩ = true ∧
    hasFemaleName ⟨"Bob", "de-DE"⟩ = false ∧
    isIndianVoice ⟨"Bob", "de-DE"⟩ = false ∧
    isIndianVoice ⟨"Samantha", "fr-FR"⟩ = false ∧
    selectDefaultClaimed [⟨"Bob", "de-DE"⟩, ⟨"Samantha", "fr-FR"⟩] =
      some ⟨"Samantha", "fr-FR"⟩ := by
  decide

/-- Claim C7 (amended): the default-voice selector is the deterministic
pure function that returns, first match winning: (1) the first voice whose
locale matches the preferred locale en-IN; else (2) the first voice whose
locale begins with the base language en AND whose display name matches the
curated female-name heuristic; else (3) the first voice whose locale begins
with en; else (4) the first voice of the list; else (5) none when the list
is empty. -/
theorem default_voice_priority (voices : List Voice) :
    selectDefaultVoice voices = selectDefaultSpec voices := by
  simp only [selectDefaultVoice, selectDefaultSpec]
  rw [head?_filter_eq_find?]
  cases h1 : voices.find? isIndianVoice with
  | some v => rfl
  | none =>
      rw [find?_filter_comm]
      cases h2 : voices.find? (fun v => isEnglishVoice v && hasFemaleName v) with
      | some v => rfl
      | none =>
          rw [head?_filter_eq_find?]
          cases h3 : voices.find? isEnglishVoice with
          | some v => rfl
          | none => rfl

/-- Claim C3 (code_bug evaluation): over the one-chunk text "Hi.", after
start and restart the position and progress are 0, but delivering the
completion callback of the pre-restart utterance afterwards mutates the
state: position becomes 1 and progress becomes 100.  The source has no
epoch guard against stale callbacks. -/
theorem stale_callback_after_restart :
    (exec (initState "Hi." [sampleVoice]) [Ev.playPause, Ev.restart]).currentChunk = 0 ∧
    (exec (initState "Hi." [sampleVoice]) [Ev.playPause, Ev.restart]).progress = 0 ∧
    (exec (initState "Hi." [sampleVoice]) [Ev.playPause, Ev.restart]).isPlaying = false ∧
    (exec (initState "Hi." [sampleVoice])
        [Ev.playPause, Ev.restart, Ev.engineEnd]).currentChunk = 1 ∧
    (exec (initState "Hi." [sampleVoice])
        [Ev.playPause, Ev.restart, Ev.engineEnd]).progress = 100 := by
  decide

/-- Claim C5 (confirmed): when the engine reports an error during playback
(engine not paused, a voice selected), the sequencer stops, raises a
destructive user-visible toast, leaves position, chunks, progress and the
dispatch log unchanged (no retry, no skip), and a subsequent play starts a
fresh session from chunk 0. -/
theorem engine_error_halts (s : PlayerState) (v : Voice)
    (h1 : 0 < s.outstanding) (h2 : s.enginePaused = false)
    (h3 : s.selectedVoice = some v) (h4 : chunkText s.text 200 ≠ []) :
    (step s Ev.engineError).isPlaying = false ∧
    (step s Ev.engineError).toasts =
      ⟨"Error", "Failed to play audio. Please try again.", true⟩ :: s.toasts ∧
    (step s Ev.engineError).currentChunk = s.currentChunk ∧
    (step s Ev.engineError).chunks = s.chunks ∧
    (step s Ev.engineError).dispatched = s.dispatched ∧
    (step s Ev.engineError).progress = s.progress ∧
    (step (step s Ev.engineError) Ev.playPause).isPlaying = true ∧
    (step (step s Ev.engineError) Ev.playPause).currentChunk = 0 ∧
    (step (step s Ev.engineError) Ev.playPause).progress = 0 ∧
    (step (step s Ev.engineError) Ev.playPause).chunks = chunkText s.text 200 ∧
    ∃ u : Utterance,
      (step (step s Ev.engineError) Ev.playPause).dispatched = u :: s.dispatched ∧
      u.text = (chunkText s.text 200).getD 0 "" := by
  have hout : ¬ s.outstanding = 0 := by omega
  have hlen : 0 < (chunkText s.text 200).length := List.length_pos.mpr h4
  simp only [step, if_neg hout, onUtteranceError, handlePlayPauseS, h3, h2,
    Bool.false_eq_true, if_false, speakNextChunkS]
  rw [if_neg (by omega)]
  repeat' apply And.intro
  all_goals first
    | trivial
    | exact ⟨_, rfl, rfl⟩

/-- Claim C5 (witness): the error theorem applied to the concrete playing
state over "Hi." - after the error the sequencer is stopped, and play
starts again. -/
theorem engine_error_halts_w :
    (step (step samplePlaying Ev.engineError) Ev.playPause).isPlaying = true :=
  (engine_error_halts samplePlaying sampleVoice (by decide) (by decide) (by decide)
    (by decide)).2.2.2.2.2.2.1

/-- Claim C6 (counterexample): in the concrete playing state over "Hi."
(speed 1), a speed change to 2 records 2 in the state, but the utterance
re-dispatched by the same handler carries rate 1, the pre-update speed
read from the stale render closure - not the newly chosen speed. -/
theorem speed_change_stale_rate_cex :
    (step samplePlaying (Ev.speedChange 2)).speed = 2 ∧
    ((step samplePlaying (Ev.speedChange 2)).dispatched.head?.map Utterance.rate) = some 1 ∧
    ¬ ((step samplePlaying (Ev.speedChange 2)).dispatched.head?.map Utterance.rate) = some 2 := by
  decide

/-- Claim C6 (amended): a speed change while the sequencer is playing with
an utterance in flight records the new speed in the state and dispatches
exactly one utterance - the chunk at the unchanged current position - but
with its rate equal to the OLD speed (the closure invoked by the handler
reads the pre-update value; the new speed only affects utterances
dispatched by later events); position, chunks and progress are unchanged,
so the handler skips no chunk and repeats none. -/
theorem speed_change_redispatch (s : PlayerState) (v : ℚ)
    (h1 : s.isPlaying = true) (h2 : s.utteranceRef.isSome = true)
    (h3 : s.currentChunk < s.chunks.length) :
    (step s (Ev.speedChange v)).speed = v ∧
    (step s (Ev.speedChange v)).currentChunk = s.currentChunk ∧
    (step s (Ev.speedChange v)).chunks = s.chunks ∧
    (step s (Ev.speedChange v)).progress = s.progress ∧
    ∃ u : Utterance,
      (step s (Ev.speedChange v)).dispatched = u :: s.dispatched ∧
      u.rate = s.speed ∧ u.text = s.chunks.getD s.currentChunk "" := by
  simp only [step, handleSpeedChangeS, h1, h2, Bool.true_and, Bool.and_self, if_true,
    engineCancel, speakNextChunkS]
  rw [if_neg (by omega)]
  repeat' apply And.intro
  all_goals first
    | trivial
    | exact ⟨_, rfl, rfl, rfl⟩

/-- Claim C6 (witness): a speed change to 2 in the concrete playing state
over "Hi." records speed 2 in the state. -/
theorem speed_change_redispatch_w :
    (step samplePlaying (Ev.speedChange 2)).speed = 2 :=
  (speed_change_redispatch samplePlaying 2 (by decide) (by decide) (by decide)).1

/-- Claim C8 (confirmed): pause while playing suspends the engine without
cancelling (no cancel() call, no utterance discarded) and leaves chunks,
position, progress, the dispatch log and the outstanding callbacks
unchanged - only the playing flag flips - and the subsequent play resumes
the engine at the same position without dispatching anything new. -/
theorem pause_preserves_position (s : PlayerState) (v : Voice)
    (h1 : s.isPlaying = true) (h2 : s.selectedVoice = some v) :
    (step s Ev.playPause).isPlaying = false ∧
    (step s Ev.playPause).enginePaused = true ∧
    (step s Ev.playPause).cancels = s.cancels ∧
    (step s Ev.playPause).chunks = s.chunks ∧
    (step s Ev.playPause).currentChunk = s.currentChunk ∧
    (step s Ev.playPause).progress = s.progress ∧
    (step s Ev.playPause).dispatched = s.dispatched ∧
    (step s Ev.playPause).outstanding = s.outstanding ∧
    (step (step s Ev.playPause) Ev.playPause).isPlaying = true ∧
    (step (step s Ev.playPause) Ev.playPause).enginePaused = false ∧
    (step (step s Ev.playPause) Ev.playPause).currentChunk = s.currentChunk ∧
    (step (step s Ev.playPause) Ev.playPause).progress = s.progress ∧
    (step (step s Ev.playPause) Ev.playPause).dispatched = s.dispatched ∧
    (step (step s Ev.playPause) Ev.playPause).cancels = s.cancels := by
  simp only [step, handlePlayPauseS, h2, h1, if_true, Bool.false_eq_true, if_false]
  repeat' apply And.intro
  all_goals trivial

/-- Claim C8 (witness): pausing the concrete playing state over "Hi." keeps
the position. -/
theorem pause_preserves_position_w :
    (step samplePlaying Ev.playPause).currentChunk = samplePlaying.currentChunk :=
  (pause_preserves_position samplePlaying sampleVoice (by decide) (by decide)).2.2.2.2.1

theorem progressInv_of_eq (s t : PlayerState) (h : progressInv s)
    (hp : t.progress = s.progress) (hc : t.chunks = s.chunks)
    (hk : t.currentChunk = s.currentChunk) : progressInv t := by
  unfold progressInv at h ⊢
  rw [hp, hc, hk]
  exact h

theorem progressInv_speakNext (s : PlayerState) (h : progressInv s) :
    progressInv (speakNextChunkS s) := by
  unfold speakNextChunkS
  split
  case isTrue hlen => exact Or.inr (Or.inr ⟨rfl, hlen⟩)
  case isFalse hlen => exact h

theorem progressInv_onEnd (s : PlayerState) : progressInv (onUtteranceEnd s) := by
  unfold onUtteranceEnd speakNextChunkS
  dsimp only
  split
  case isTrue hlen => exact Or.inr (Or.inr ⟨rfl, hlen⟩)
  case isFalse hlen =>
      refine Or.inr (Or.inl ⟨?_, ?_⟩)
      · show 0 < s.chunks.length
        omega
      · show ((s.currentChunk + 1 : Nat) : ℚ) / (s.chunks.length : ℚ) * 100 =
          100 * ((min (s.currentChunk + 1) s.chunks.length : Nat) : ℚ) / (s.chunks.length : ℚ)
        have hm : min (s.currentChunk + 1) s.chunks.length = s.currentChunk + 1 :=
          Nat.min_eq_left (by omega)
        rw [hm]
        ring

theorem progressInv_step (s : PlayerState) (e : Ev) (h : progressInv s) :
    progressInv (step s e) := by
  cases e with
  | playPause =>
      unfold step handlePlayPauseS
      cases hv : s.selectedVoice with
      | none =>
          simp only [hv]
          exact progressInv_of_eq s _ h rfl rfl rfl
      | some v =>
          simp only [hv]
          by_cases hp : s.isPlaying = true
          · rw [if_pos hp]
            exact progressInv_of_eq s _ h rfl rfl rfl
          · rw [if_neg hp]
            by_cases hpd : s.enginePaused = true
            · rw [if_pos hpd]
              exact progressInv_of_eq s _ h rfl rfl rfl
            · rw [if_neg hpd]
              exact progressInv_speakNext _ (Or.inl rfl)
  | restart => exact Or.inl rfl
  | engineEnd =>
      show progressInv (if s.outstanding = 0 then s
        else onUtteranceEnd { s with outstanding := s.outstanding - 1 })
      split
      · exact h
      · exact progressInv_onEnd _
  | engineError =>
      show progressInv (if s.outstanding = 0 then s
        else onUtteranceError { s with outstanding := s.outstanding - 1 })
      split
      · exact h
      · exact progressInv_of_eq s _ h rfl rfl rfl
  | speedChange v =>
      show progressInv (handleSpeedChangeS v s)
      unfold handleSpeedChangeS
      split
      · exact progressInv_of_eq (speakNextChunkS (engineCancel s)) _
          (progressInv_speakNext _ (progressInv_of_eq s _ h rfl rfl rfl)) rfl rfl rfl
      · exact progressInv_of_eq s _ h rfl rfl rfl
  | voiceChange n =>
      unfold step handleVoiceChangeS
      cases hf : s.availableVoices.find? (fun v => v.name == n) with
      | none =>
          simp only [hf]
          exact h
      | some voice =>
          simp only [hf]
          by_cases hp : s.isPlaying = true
          · rw [if_pos hp]
            exact Or.inl rfl
          · rw [if_neg hp]
            exact progressInv_of_eq s _ h rfl rfl rfl

theorem progressInv_exec (tr : List Ev) :
    ∀ s : PlayerState, progressInv s → progressInv (exec s tr) := by
  induction tr with
  | nil => intro s h; exact h
  | cons e es ih => intro s h; exact ih (step s e) (progressInv_step s e h)

theorem exec_append_single (tr : List Ev) (e : Ev) :
    ∀ s : PlayerState, exec s (tr ++ [e]) = step (exec s tr) e := by
  induction tr with
  | nil => intro s; rfl
  | cons f fs ih => intro s; exact ih (step s f)

theorem progress_le_100 (s : PlayerState) (h : progressInv s) : s.progress ≤ 100 := by
  rcases h with h0 | ⟨hpos, heq⟩ | ⟨h100, _⟩
  · rw [h0]; norm_num
  · rw [heq]
    have hlen0 : (0:ℚ) < (s.chunks.length : ℚ) := by exact_mod_cast hpos
    rw [mul_div_assoc]
    have hle : ((min s.currentChunk s.chunks.length : Nat) : ℚ) / (s.chunks.length : ℚ) ≤ 1 := by
      rw [div_le_one hlen0]
      exact_mod_cast Nat.min_le_right _ _
    nlinarith
  · rw [h100]

theorem progress_eq_100_completed (s : PlayerState) (h : progressInv s) :
    s.progress = 100 → s.chunks.length ≤ s.currentChunk := by
  intro h100
  rcases h with h0 | ⟨hpos, heq⟩ | ⟨_, hge⟩
  · rw [h0] at h100; norm_num at h100
  · rw [heq, mul_div_assoc] at h100
    have h1 : ((min s.currentChunk s.chunks.length : Nat) : ℚ) / (s.chunks.length : ℚ) = 1 :=
      mul_left_cancel₀ (show (100:ℚ) ≠ 0 by norm_num) (h100.trans (mul_one 100).symm)
    have h2 : ((min s.currentChunk s.chunks.length : Nat) : ℚ) = (s.chunks.length : ℚ) :=
      (div_eq_one_iff_eq (Nat.cast_ne_zero.mpr (by omega))).mp h1
    have h3 : min s.currentChunk s.chunks.length = s.chunks.length := Nat.cast_injective h2
    omega
  · exact hge

theorem progress_le_onEnd (s : PlayerState) (h : progressInv s) :
    s.progress ≤ (step s Ev.engineEnd).progress := by
  show s.progress ≤ (if s.outstanding = 0 then s
    else onUtteranceEnd { s with outstanding := s.outstanding - 1 }).progress
  split
  · exact le_refl _
  · unfold onUtteranceEnd speakNextChunkS
    split
    case isTrue hlen => exact progress_le_100 s h
    case isFalse hlen =>
        have hl : ¬ (s.chunks.length ≤ s.currentChunk + 1) := hlen
        show s.progress ≤ ((s.currentChunk + 1 : Nat) : ℚ) / (s.chunks.length : ℚ) * 100
        have hlen0 : (0:ℚ) < (s.chunks.length : ℚ) := by
          have : 0 < s.chunks.length := by omega
          exact_mod_cast this
        rcases h with h0 | ⟨hpos, heq⟩ | ⟨h100, hge⟩
        · rw [h0]; positivity
        · rw [heq]
          have hmin : min s.currentChunk s.chunks.length = s.currentChunk :=
            Nat.min_eq_left (by omega)
          rw [hmin]
          have hr : ((s.currentChunk + 1 : Nat) : ℚ) / (s.chunks.length : ℚ) * 100 =
              100 * ((s.currentChunk + 1 : Nat) : ℚ) / (s.chunks.length : ℚ) := by ring
          rw [hr, mul_div_assoc, mul_div_assoc]
          have hcast : ((s.currentChunk : Nat) : ℚ) ≤ ((s.currentChunk + 1 : Nat) : ℚ) := by
            exact_mod_cast Nat.le_succ _
          have hdiv : ((s.currentChunk : Nat) : ℚ) / (s.chunks.length : ℚ) ≤
              ((s.currentChunk + 1 : Nat) : ℚ) / (s.chunks.length : ℚ) := by
            gcongr
          nlinarith
        · exfalso
          omega

/-- Claim C4 (counterexample): over a two-chunk session, after the first
chunk completes (position 1, progress 50) a voice change issued while
playing resets progress to 0 but leaves the position at 1, so the reachable
state has progressPercent 0 while 100 * position / totalChunks is 50. -/
theorem progress_voice_change_cex :
    (exec (initState twoChunkText [sampleVoice])
        [Ev.playPause, Ev.engineEnd, Ev.voiceChange "v"]).currentChunk = 1 ∧
    (exec (initState twoChunkText [sampleVoice])
        [Ev.playPause, Ev.engineEnd, Ev.voiceChange "v"]).chunks.length = 2 ∧
    (exec (initState twoChunkText [sampleVoice])
        [Ev.playPause, Ev.engineEnd, Ev.voiceChange "v"]).progress = 0 ∧
    ¬ ((exec (initState twoChunkText [sampleVoice])
          [Ev.playPause, Ev.engineEnd, Ev.voiceChange "v"]).progress =
        100 * ((exec (initState twoChunkText [sampleVoice])
            [Ev.playPause, Ev.engineEnd, Ev.voiceChange "v"]).currentChunk : ℚ) /
          ((exec (initState twoChunkText [sampleVoice])
            [Ev.playPause, Ev.engineEnd, Ev.voiceChange "v"]).chunks.length : ℚ)) := by
  have h1 : (exec (initState twoChunkText [sampleVoice])
      [Ev.playPause, Ev.engineEnd, Ev.voiceChange "v"]).currentChunk = 1 := by decide
  have h2 : (exec (initState twoChunkText [sampleVoice])
      [Ev.playPause, Ev.engineEnd, Ev.voiceChange "v"]).chunks.length = 2 := by decide
  have h3 : (exec (initState twoChunkText [sampleVoice])
      [Ev.playPause, Ev.engineEnd, Ev.voiceChange "v"]).progress = 0 := by decide
  refine ⟨h1, h2, h3, ?_⟩
  rw [h1, h2, h3]
  norm_num

/-- Claim C4 (amended): in every reachable state of the sequencer, progress
is 0 (session start, restart, or a voice change issued while playing, which
resets progress without resetting the position), or it equals
100 * min(position, totalChunks) / totalChunks for a non-empty chunk
sequence, or it is 100 with the position at or past the end; progress is 0
at session start, it equals 100 only with the position at or past the end
(Completed), and it is non-decreasing across engine-completion events. -/
theorem progress_formula (text : String) (voices : List Voice) (tr : List Ev) :
    progressInv (exec (initState text voices) tr) ∧
    (initState text voices).progress = 0 ∧
    ((exec (initState text voices) tr).progress = 100 →
      (exec (initState text voices) tr).chunks.length ≤
        (exec (initState text voices) tr).currentChunk) ∧
    (exec (initState text voices) tr).progress ≤
      (exec (initState text voices) (tr ++ [Ev.engineEnd])).progress := by
  have hinv : progressInv (exec (initState text voices) tr) :=
    progressInv_exec tr _ (Or.inl rfl)
  refine ⟨hinv, rfl, progress_eq_100_completed _ hinv, ?_⟩
  rw [exec_append_single]
  exact progress_le_onEnd _ hinv

/-- Claim C4 (witness): on the one-chunk session over "Hi." after start and
one completion, progress is 100 and the theorem yields that the position is
at or past the end of the chunk sequence. -/
theorem progress_formula_w :
    (exec (initState "Hi." [sampleVoice]) [Ev.playPause, Ev.engineEnd]).chunks.length ≤
      (exec (initState "Hi." [sampleVoice]) [Ev.playPause, Ev.engineEnd]).currentChunk :=
  (progress_formula "Hi." [sampleVoice] [Ev.playPause, Ev.engineEnd]).2.2.1 (by decide)

end ReadAloud
